import Mathlib

/-!
Verification of the `gazetteer-rs` phrase-trie engine (`src/tree.rs`, `src/main.rs`).

The Rust code is shallowly embedded: `StringTree` becomes a nested inductive,
`VecDeque<&str>` becomes `List String`, in-place mutation becomes explicit
state passing and code that can panic returns `Option`/`Except`.
Byte offsets are modelled as character offsets; all concrete inputs are ASCII,
where the two coincide.
-/

namespace Gazetteer

/-- A comparison on characters by code point, as Rust compares `char`/UTF-8 bytes. -/
def charLt (a b : Char) : Bool := a.toNat < b.toNat

/-- Lexicographic order on character lists: the order Rust's `Ord for String`
implements (byte-wise comparison of UTF-8, which coincides with code-point
lexicographic order). -/
def strLtL : List Char → List Char → Bool
  | [], [] => false
  | [], _ :: _ => true
  | _ :: _, [] => false
  | a :: as, b :: bs => if a = b then strLtL as bs else charLt a b

/-- `strLt s t` models `s < t` for Rust `String`s. -/
def strLt (s t : String) : Bool := strLtL s.data t.data

/-- ASCII lowercasing of a string, modelling `str::to_lowercase` on the ASCII
inputs this development evaluates (Rust's Unicode lowercasing agrees with
per-character lowercasing there). -/
def lowercase (s : String) : String := ⟨s.data.map Char.toLower⟩

/-- Rust `StringTree` from `tree.rs`: a node with a `value`, a `uri`
(empty string means "not a terminal") and a vector of `children`. -/
inductive StringTree : Type where
  | mk (value : String) (uri : String) (children : List StringTree)

instance : Inhabited StringTree := ⟨⟨"", "", []⟩⟩

def StringTree.value : StringTree → String
  | ⟨v, _, _⟩ => v

def StringTree.uri : StringTree → String
  | ⟨_, u, _⟩ => u

def StringTree.children : StringTree → List StringTree
  | ⟨_, _, c⟩ => c

/-- `StringTree::root()`. -/
def StringTree.root : StringTree := ⟨"<ROOT>", "", []⟩

/-- `StringTree::create(value, uri)`. -/
def StringTree.create (value : String) (uri : String) : StringTree := ⟨value, uri, []⟩

/-- Models `Vec::binary_search_by_key(&key, |a| a.get_value())`: on a slice
sorted by value it returns `.ok` with the index of the element whose value
equals `key`, or `.error` with the insertion index keeping the slice sorted.
Implemented as the equivalent left-to-right scan, which agrees with binary
search on sorted input (the only input the Rust code produces via `insert`). -/
def binarySearchByKey (key : String) : List StringTree → Except Nat Nat
  | [] => .error 0
  | c :: rest =>
    if c.value = key then .ok 0
    else if strLt key c.value then .error 0
    else
      match binarySearchByKey key rest with
      | .ok i => .ok (i + 1)
      | .error i => .error (i + 1)

/-- `StringTree::insert(values, uri)`. The Rust code starts with
`values.pop_front().unwrap()`, which panics on an empty deque: that case is
modelled as `none`. The returned `Bool` is the Rust return value. -/
def StringTree.insert : StringTree → List String → String → Option (StringTree × Bool)
  | _, [], _ => none
  | ⟨val, slf, children⟩, v :: rest, uri =>
    let key := lowercase v
    match binarySearchByKey key children with
    | .ok idx =>
      if rest.isEmpty then
        if (children.getD idx default).uri = "" then
          some (⟨val, slf,
            children.set idx
              ⟨(children.getD idx default).value, uri, (children.getD idx default).children⟩⟩,
            true)
        else
          some (⟨val, slf, children⟩, false)
      else
        match (children.getD idx default).insert rest uri with
        | none => none
        | some (c, b) => some (⟨val, slf, children.set idx c⟩, b)
    | .error idx =>
      if rest.isEmpty then
        some (⟨val, slf, children.insertIdx idx (StringTree.create key uri)⟩, true)
      else
        let children2 := children.insertIdx idx (StringTree.create key "")
        match (children2.getD idx default).insert rest uri with
        | none => none
        | some (c, b) => some (⟨val, slf, children2.set idx c⟩, b)

/-- `StringTree::_traverse(values, matched_string_buffer, results)`.
`values.pop_front().expect("")` panics on an empty deque, modelled as `none`. -/
def StringTree.traverseRec :
    StringTree → List String → List String → List (String × List String) →
      Option (List (String × List String))
  | _, [], _, _ => none
  | ⟨_, _, children⟩, v :: rest, buf, results =>
    match binarySearchByKey (lowercase v) children with
    | .ok idx =>
      let c := children.getD idx default
      let buf := buf ++ [v]
      let results := if c.uri = "" then results else results ++ [(c.uri, buf)]
      if rest.isEmpty then some results
      else c.traverseRec rest buf results
    | .error _ => some results

/-- `StringTree::traverse(values)`: wraps `_traverse`, turning an empty result
vector into the error `"No matches found"`. -/
def StringTree.traverse (t : StringTree) (values : List String) :
    Option (Except String (List (String × List String))) :=
  match t.traverseRec values [] [] with
  | none => none
  | some vec => some (if vec.length > 0 then .ok vec else .error "No matches found")

/-- All values in `l` are strictly above `v` in the string order. -/
def allLtVal (v : String) (l : List StringTree) : Bool :=
  l.all (fun c => strLt v c.value)

/-- The children vector is strictly sorted by `value` (so it has no two
entries with the same value and `binary_search_by_key` is valid on it). -/
def sortedVals : List StringTree → Bool
  | [] => true
  | c :: rest => allLtVal c.value rest && sortedVals rest

mutual

/-- The children-ordering invariant of the spec, at every node of the tree. -/
def goodTree : StringTree → Bool
  | ⟨_, _, children⟩ => sortedVals children && goodList children

/-- `goodTree` holds of every tree in the list. -/
def goodList : List StringTree → Bool
  | [] => true
  | c :: rest => goodTree c && goodList rest

end

/-- Outcomes of the fuelled model of `StringTree::join`: `indexPanic` is the
Rust panic on an out-of-bounds `Vec` index, `outOfFuel` marks insufficient
fuel (never hit at the fuel values used below). -/
inductive JoinErr : Type where
  | outOfFuel
  | indexPanic
deriving DecidableEq

mutual

/-- The `while` loop of `StringTree::join`, with `children`/`s_index`/`o_index`
passed explicitly. Each iteration: if `s_index >= children.len()` push
`other.children[o_index]` and advance `o_index` (the Rust code then falls
through to the comparison without re-checking the loop condition); then
compare `children[s_index].value` with `other.children[o_index].value` and
act on `Less`/`Greater`/`Equal` exactly as the Rust `match` does. An
out-of-bounds index access is `.error .indexPanic`. -/
def joinLoop : Nat → List StringTree → List StringTree → Nat → Nat →
    Except JoinErr (List StringTree)
  | 0, _, _, _, _ => .error .outOfFuel
  | fuel + 1, children, other, s, o =>
    if o < other.length then
      let children' := if children.length ≤ s then children ++ [other.getD o default] else children
      let o' := if children.length ≤ s then o + 1 else o
      if s < children'.length then
        if o' < other.length then
          let sc := children'.getD s default
          let oc := other.getD o' default
          if sc.value = oc.value then
            match StringTree.join fuel sc oc with
            | .error e => .error e
            | .ok merged => joinLoop fuel (children'.set s merged) other s (o' + 1)
          else if strLt sc.value oc.value then
            joinLoop fuel (children'.insertIdx s oc) other s (o' + 1)
          else
            joinLoop fuel children' other (s + 1) o'
        else .error .indexPanic
      else .error .indexPanic
    else .ok children

/-- `StringTree::join(other)`: runs the loop on `self.children` and
`other.children` from indices `0`, returning the updated tree. -/
def StringTree.join : Nat → StringTree → StringTree → Except JoinErr StringTree
  | 0, _, _ => .error .outOfFuel
  | fuel + 1, t, other =>
    match joinLoop fuel t.children other.children 0 0 with
    | .error e => .error e
    | .ok c => .ok ⟨t.value, t.uri, c⟩

end

/-- The delimiter pattern of `split_with_indices`:
`&[' ', ',', '.', ':', ':', '"', '(', ')']` (the colon is listed twice in the
Rust source). -/
def delimiters : List Char := [' ', ',', '.', ':', ':', '"', '(', ')']

/-- `str::match_indices` for a character-class pattern: the positions of the
delimiter occurrences, left to right. -/
def matchIndices (s : List Char) : List Nat :=
  (List.range s.length).filter (fun i => (s.getD i default) ∈ delimiters)

/-- The loop of `split_with_indices`: for each delimiter position `idx`,
push the slice `s[last..idx]` with offsets `(last, last + slice.len())`,
then set `last = idx + 1`. Text after the last delimiter is never pushed. -/
def splitLoop (s : List Char) : List Nat → Nat → List (Nat × Nat) × List String
  | [], _ => ([], [])
  | idx :: rest, last =>
    let slice := (s.drop last).take (idx - last)
    let r := splitLoop s rest (idx + 1)
    ((last, last + slice.length) :: r.1, String.mk slice :: r.2)

/-- `split_with_indices(s)` from `tree.rs`. -/
def split_with_indices (s : String) : List (Nat × Nat) × List String :=
  splitLoop s.data (matchIndices s.data) 0

/-- Rust `slice::windows(n)` (for `n ≥ 1`; `windows(0)` panics and is never
used here): all contiguous sub-slices of length exactly `n`. -/
def windows (n : Nat) (l : List α) : List (List α) :=
  (List.range (l.length + 1 - n)).map (fun i => (l.drop i).take n)

/-- `"a b c"`-style joining, modelling `Vec::join(" ")`. -/
def joinSpace : List String → String
  | [] => ""
  | [s] => s
  | s :: rest => s ++ " " ++ joinSpace rest

/-- The search harness of `test_small`/`test_large_single` in `tree.rs`:
tokenize, slide `windows(max_len)` over slices and offsets in lockstep,
`traverse` each window, and report for every result the identifier, the
matched text, `start = offsets[0].0` and `end = offsets[len-1].1`. -/
def searchOutputs (t : StringTree) (maxLen : Nat) (s : String) :
    List (String × String × Nat × Nat) :=
  let p := split_with_indices s
  ((windows maxLen p.1).zip (windows maxLen p.2)).flatMap (fun ow =>
    match t.traverse ow.2 with
    | some (.ok results) =>
      results.map (fun r =>
        (r.1, joinSpace r.2, (ow.1.getD 0 default).1, (ow.1.getD (r.2.length - 1) default).2))
    | _ => [])

/-- `ResultSelection` from the web layer. -/
inductive ResultSelection : Type where
  | All
  | Last
  | Longest
deriving DecidableEq

/-- The `result_selection` handling of the `/tag` route in `main.rs`:
`"All"`/`"Last"`/`"Longest"` map to themselves, any other string falls back
to `Longest` (with a logged warning), and an absent field defaults to
`Longest`. -/
def tagResultSelection : Option String → ResultSelection
  | some s =>
    if s = "All" then .All
    else if s = "Last" then .Last
    else if s = "Longest" then .Longest
    else .Longest
  | none => .Longest

/-- `request.max_len.or_else(|| Some(5))` in the `/tag` route. -/
def tagMaxLen : Option Nat → Option Nat
  | some v => some v
  | none => some 5

/-- `request.max_deletes.or_else(|| Some(0))` in the `/tag` route. -/
def tagMaxDeletes : Option Nat → Option Nat
  | some v => some v
  | none => some 0

/-- Reference child selection, following the spec's words: the child whose
value equals the lower-cased token (values are compared case-insensitively). -/
def specFindChild (t : StringTree) (v : String) : Option StringTree :=
  t.children.find? (fun c => c.value = lowercase v)

/-- Reference node-at-path, following the spec's words: descend from `t`
along the (case-insensitively compared) token path. -/
def specNodeAt : StringTree → List String → Option StringTree
  | t, [] => some t
  | t, v :: rest =>
    match specFindChild t v with
    | none => none
    | some c => specNodeAt c rest

/-- Reference lookup, following the spec's words: for every prefix of the
token path that corresponds to a tree path — stopping at the first token with
no matching child — collect `(identifier, matched_prefix_tokens)` whenever
the prefix's node has a non-empty identifier, shallower prefixes first. -/
def specLookup : StringTree → List String → List (String × List String)
  | _, [] => []
  | t, v :: rest =>
    match specFindChild t v with
    | none => []
    | some c =>
      (if c.uri = "" then [] else [(c.uri, [v])]) ++
        (specLookup c rest).map (fun r => (r.1, v :: r.2))

/-- The trie built by the code for the spec's offsets example: the phrase
`example phrase` inserted into an empty root with identifier `uri:p`. -/
def examplePhraseTree : StringTree :=
  ((StringTree.root.insert ["example", "phrase"] "uri:p").getD (default, false)).1

theorem charLt_trans {a b c : Char} (h1 : charLt a b = true) (h2 : charLt b c = true) :
    charLt a c = true := by
  simp only [charLt, decide_eq_true_eq] at *
  omega

theorem charLt_irrefl (a : Char) : charLt a a = false := by
  simp [charLt]

theorem char_eq_of_not_lt {a b : Char} (h1 : charLt a b = false) (h2 : charLt b a = false) :
    a = b := by
  simp only [charLt, decide_eq_false_iff_not, Nat.not_lt] at h1 h2
  have h : a.toNat = b.toNat := by omega
  rw [← Char.ofNat_toNat a, ← Char.ofNat_toNat b, h]

theorem strLtL_irrefl : ∀ l : List Char, strLtL l l = false
  | [] => rfl
  | a :: as => by simp [strLtL, strLtL_irrefl as]

theorem strLtL_trans : ∀ {l1 l2 l3 : List Char}, strLtL l1 l2 = true → strLtL l2 l3 = true →
    strLtL l1 l3 = true
  | [], [], _, h1, _ => by simp [strLtL] at h1
  | [], _ :: _, [], _, h2 => by simp [strLtL] at h2
  | [], _ :: _, _ :: _, _, _ => rfl
  | _ :: _, [], _, h1, _ => by simp [strLtL] at h1
  | _ :: _, _ :: _, [], _, h2 => by simp [strLtL] at h2
  | a :: as, b :: bs, c :: cs, h1, h2 => by
    simp only [strLtL] at h1 h2 ⊢
    by_cases hab : a = b <;> by_cases hbc : b = c
    · subst hab; subst hbc
      simp only [if_pos rfl] at h1 h2 ⊢
      exact strLtL_trans h1 h2
    · subst hab
      simp only [if_pos rfl, if_neg hbc] at h2 ⊢
      exact h2
    · subst hbc
      simp only [if_pos rfl, if_neg hab] at h1 ⊢
      exact h1
    · simp only [if_neg hab, if_neg hbc] at h1 h2
      have hac : charLt a c = true := charLt_trans h1 h2
      have : a ≠ c := by
        intro h
        subst h
        have := charLt_trans h1 h2
        rw [charLt_irrefl] at this
        exact Bool.false_ne_true this
      simp [if_neg this, hac]

theorem strLtL_eq_of_not_lt : ∀ {l1 l2 : List Char}, strLtL l1 l2 = false →
    strLtL l2 l1 = false → l1 = l2
  | [], [], _, _ => rfl
  | [], _ :: _, h1, _ => by simp [strLtL] at h1
  | _ :: _, [], _, h2 => by simp [strLtL] at h2
  | a :: as, b :: bs, h1, h2 => by
    simp only [strLtL] at h1 h2
    by_cases hab : a = b
    · subst hab
      simp only [if_pos rfl] at h1 h2
      rw [strLtL_eq_of_not_lt h1 h2]
    · have hba : b ≠ a := fun h => hab h.symm
      simp only [if_neg hab, if_neg hba] at h1 h2
      exact absurd (char_eq_of_not_lt h1 h2) hab

theorem strLt_trans {s1 s2 s3 : String} (h1 : strLt s1 s2 = true) (h2 : strLt s2 s3 = true) :
    strLt s1 s3 = true :=
  strLtL_trans h1 h2

theorem strLt_irrefl (s : String) : strLt s s = false :=
  strLtL_irrefl s.data

theorem str_eq_of_not_lt {s1 s2 : String} (h1 : strLt s1 s2 = false) (h2 : strLt s2 s1 = false) :
    s1 = s2 := by
  cases s1 with
  | mk d1 =>
    cases s2 with
    | mk d2 =>
      exact congrArg String.mk (strLtL_eq_of_not_lt h1 h2)

theorem strLt_ne {s1 s2 : String} (h : strLt s1 s2 = true) : s1 ≠ s2 := by
  intro he
  subst he
  rw [strLt_irrefl] at h
  exact Bool.false_ne_true h

theorem strLt_asymm {s1 s2 : String} (h : strLt s1 s2 = true) : strLt s2 s1 = false := by
  by_contra hc
  have h2 : strLt s2 s1 = true := by
    cases hb : strLt s2 s1
    · exact absurd hb hc
    · rfl
  have := strLt_trans h h2
  rw [strLt_irrefl] at this
  exact Bool.false_ne_true this

theorem getD_cons_succ {α : Type _} (x : α) (xs : List α) (i : Nat) (d : α) :
    (x :: xs).getD (i + 1) d = xs.getD i d := rfl

theorem getD_set_eq {α : Type _} :
    ∀ (l : List α) (i : Nat) (a d : α), i < l.length → (l.set i a).getD i d = a
  | [], i, _, _, h => absurd h (by simp)
  | _ :: _, 0, _, _, _ => rfl
  | _ :: xs, i + 1, a, d, h => getD_set_eq xs i a d (by simpa using h)

theorem set_getD_self {α : Type _} : ∀ (l : List α) (i : Nat) (d : α),
    l.set i (l.getD i d) = l
  | [], _, _ => rfl
  | _ :: _, 0, _ => rfl
  | x :: xs, i + 1, d => congrArg (x :: ·) (set_getD_self xs i d)

theorem getD_insertIdx_self {α : Type _} :
    ∀ (l : List α) (i : Nat) (a d : α), i ≤ l.length → (l.insertIdx i a).getD i d = a
  | _, 0, _, _, _ => rfl
  | [], i + 1, _, _, h => absurd h (by simp)
  | x :: xs, i + 1, a, d, h => by
    simpa using getD_insertIdx_self xs i a d (Nat.le_of_succ_le_succ h)

theorem getD_mem {α : Type _} : ∀ (l : List α) (i : Nat) (d : α), i < l.length → l.getD i d ∈ l
  | [], i, _, h => absurd h (by simp)
  | x :: _, 0, _, _ => List.mem_cons_self x _
  | _ :: xs, i + 1, d, h => List.mem_cons_of_mem _ (getD_mem xs i d (by simpa using h))

theorem map_set_eq {α β : Type _} (f : α → β) :
    ∀ (l : List α) (i : Nat) (a : α), (l.set i a).map f = (l.map f).set i (f a)
  | [], _, _ => rfl
  | _ :: _, 0, _ => rfl
  | x :: xs, i + 1, a => congrArg (f x :: ·) (map_set_eq f xs i a)

theorem map_insertIdx_eq {α β : Type _} (f : α → β) :
    ∀ (l : List α) (i : Nat) (a : α), (l.insertIdx i a).map f = (l.map f).insertIdx i (f a)
  | _, 0, _ => rfl
  | [], _ + 1, _ => rfl
  | x :: xs, i + 1, a => by simpa using congrArg (f x :: ·) (map_insertIdx_eq f xs i a)

theorem allLtVal_forall {v : String} {l : List StringTree} (h : allLtVal v l = true) :
    ∀ c ∈ l, strLt v c.value = true := by
  simpa only [allLtVal, List.all_eq_true] using h

theorem allLtVal_of_forall {v : String} {l : List StringTree}
    (h : ∀ c ∈ l, strLt v c.value = true) : allLtVal v l = true := by
  simpa only [allLtVal, List.all_eq_true] using h

theorem sortedVals_cons {c : StringTree} {rest : List StringTree}
    (h : sortedVals (c :: rest) = true) :
    allLtVal c.value rest = true ∧ sortedVals rest = true := by
  simpa only [sortedVals, Bool.and_eq_true] using h

theorem bs_ok_lt (key : String) : ∀ (l : List StringTree) (i : Nat),
    binarySearchByKey key l = .ok i → i < l.length := by
  intro l
  induction l with
  | nil => intro i h; simp [binarySearchByKey] at h
  | cons c rest ih =>
    intro i h
    simp only [binarySearchByKey] at h
    split at h
    · cases h; simp
    · split at h
      · cases h
      · cases hbs : binarySearchByKey key rest with
        | ok j =>
          rw [hbs] at h
          cases h
          have := ih j hbs
          simp only [List.length_cons]
          omega
        | error j => rw [hbs] at h; cases h

theorem bs_err_le (key : String) : ∀ (l : List StringTree) (i : Nat),
    binarySearchByKey key l = .error i → i ≤ l.length := by
  intro l
  induction l with
  | nil => intro i h; simp only [binarySearchByKey] at h; cases h; simp
  | cons c rest ih =>
    intro i h
    simp only [binarySearchByKey] at h
    split at h
    · cases h
    · split at h
      · cases h; simp
      · cases hbs : binarySearchByKey key rest with
        | ok j => rw [hbs] at h; cases h
        | error j =>
          rw [hbs] at h
          cases h
          have := ih j hbs
          simp only [List.length_cons]
          omega

theorem bs_ok_val (key : String) : ∀ (l : List StringTree) (i : Nat),
    binarySearchByKey key l = .ok i → (l.getD i default).value = key := by
  intro l
  induction l with
  | nil => intro i h; simp [binarySearchByKey] at h
  | cons c rest ih =>
    intro i h
    simp only [binarySearchByKey] at h
    split at h
    · rename_i hv
      cases h
      exact hv
    · split at h
      · cases h
      · cases hbs : binarySearchByKey key rest with
        | ok j =>
          rw [hbs] at h
          cases h
          exact ih j hbs
        | error j => rw [hbs] at h; cases h

theorem bs_ok_find? (key : String) : ∀ (l : List StringTree) (i : Nat),
    sortedVals l = true → binarySearchByKey key l = .ok i →
    l.find? (fun c => c.value = key) = some (l.getD i default) := by
  intro l
  induction l with
  | nil => intro i _ h; simp [binarySearchByKey] at h
  | cons c rest ih =>
    intro i hs h
    simp only [binarySearchByKey] at h
    split at h
    · rename_i hv
      cases h
      simp [List.find?, hv]
    · rename_i hv
      split at h
      · cases h
      · cases hbs : binarySearchByKey key rest with
        | ok j =>
          rw [hbs] at h
          cases h
          have := ih j (sortedVals_cons hs).2 hbs
          simp [List.find?, hv, this]
        | error j => rw [hbs] at h; cases h

theorem bs_err_find? (key : String) : ∀ (l : List StringTree) (i : Nat),
    sortedVals l = true → binarySearchByKey key l = .error i →
    l.find? (fun c => c.value = key) = none := by
  intro l
  induction l with
  | nil => intro i _ _; rfl
  | cons c rest ih =>
    intro i hs h
    simp only [binarySearchByKey] at h
    split at h
    · cases h
    · rename_i hv
      split at h
      · rename_i hlt
        have hall := allLtVal_forall (sortedVals_cons hs).1
        rw [List.find?_eq_none]
        intro x hx
        simp only [decide_eq_true_eq]
        rcases List.mem_cons.mp hx with rfl | hx
        · exact hv
        · intro hxk
          have h1 : strLt key x.value = true := strLt_trans hlt (hall x hx)
          exact strLt_ne h1 hxk.symm
      · cases hbs : binarySearchByKey key rest with
        | ok j => rw [hbs] at h; cases h
        | error j =>
          have := ih j (sortedVals_cons hs).2 hbs
          simp [List.find?, hv, this]

theorem bs_mem_ok (key : String) : ∀ (l : List StringTree) (c : StringTree),
    sortedVals l = true → c ∈ l → c.value = key →
    ∃ i, binarySearchByKey key l = .ok i ∧ l.getD i default = c := by
  intro l
  induction l with
  | nil => intro c _ hm; simp at hm
  | cons d rest ih =>
    intro c hs hm hv
    have hall := allLtVal_forall (sortedVals_cons hs).1
    rcases List.mem_cons.mp hm with rfl | hm
    · refine ⟨0, ?_, rfl⟩
      simp [binarySearchByKey, hv]
    · have hdv : ¬ d.value = key := by
        intro hd
        have h1 := hall c hm
        rw [hd, hv] at h1
        rw [strLt_irrefl] at h1
        exact Bool.false_ne_true h1
      have hlt : strLt key d.value = false := by
        cases hb : strLt key d.value
        · rfl
        · have h1 := strLt_trans hb (hall c hm)
          exact absurd hv.symm (strLt_ne h1)
      obtain ⟨j, hbs, hget⟩ := ih c (sortedVals_cons hs).2 hm hv
      refine ⟨j + 1, ?_, hget⟩
      simp [binarySearchByKey, hdv, hlt, hbs]

theorem sortedVals_insertIdx (key : String) (a : StringTree) (ha : a.value = key) :
    ∀ (l : List StringTree) (i : Nat), sortedVals l = true →
    binarySearchByKey key l = .error i → sortedVals (l.insertIdx i a) = true := by
  intro l
  induction l with
  | nil =>
    intro i _ h
    simp only [binarySearchByKey] at h
    cases h
    simp [sortedVals, allLtVal]
  | cons c rest ih =>
    intro i hs h
    simp only [binarySearchByKey] at h
    split at h
    · cases h
    · rename_i hv
      split at h
      · rename_i hlt
        cases h
        have hall := allLtVal_forall (sortedVals_cons hs).1
        simp only [List.insertIdx_zero, sortedVals, Bool.and_eq_true]
        refine ⟨allLtVal_of_forall ?_, sortedVals_cons hs⟩
        intro x hx
        rcases List.mem_cons.mp hx with rfl | hx
        · rw [ha]; exact hlt
        · rw [ha]; exact strLt_trans hlt (hall x hx)
      · rename_i hlt
        cases hbs : binarySearchByKey key rest with
        | ok j => rw [hbs] at h; cases h
        | error j =>
          rw [hbs] at h
          cases h
          have hall := allLtVal_forall (sortedVals_cons hs).1
          have hle := bs_err_le key rest j hbs
          simp only [List.insertIdx_succ_cons, sortedVals, Bool.and_eq_true]
          constructor
          · refine allLtVal_of_forall ?_
            intro x hx
            rcases (List.mem_insertIdx hle).mp hx with rfl | hx
            · rw [ha]
              cases hb : strLt c.value key
              · exact absurd (str_eq_of_not_lt hb (Bool.of_not_eq_true hlt)) hv
              · rfl
            · exact hall x hx
          · exact ih j (sortedVals_cons hs).2 hbs

theorem bs_congr (key : String) : ∀ (l l' : List StringTree),
    l.map StringTree.value = l'.map StringTree.value →
    binarySearchByKey key l = binarySearchByKey key l' := by
  intro l
  induction l with
  | nil =>
    intro l' h
    cases l' with
    | nil => rfl
    | cons c' rest' => simp at h
  | cons c rest ih =>
    intro l' h
    cases l' with
    | nil => simp at h
    | cons c' rest' =>
      simp only [List.map_cons, List.cons.injEq] at h
      obtain ⟨h1, h2⟩ := h
      simp only [binarySearchByKey, h1, ih rest' h2]

theorem allLtVal_congr (v : String) : ∀ (l l' : List StringTree),
    l.map StringTree.value = l'.map StringTree.value → allLtVal v l = allLtVal v l' := by
  intro l
  induction l with
  | nil =>
    intro l' h
    cases l' with
    | nil => rfl
    | cons c' rest' => simp at h
  | cons c rest ih =>
    intro l' h
    cases l' with
    | nil => simp at h
    | cons c' rest' =>
      simp only [List.map_cons, List.cons.injEq] at h
      obtain ⟨h1, h2⟩ := h
      have ih' := ih rest' h2
      simp only [allLtVal, List.all_cons, h1] at ih' ⊢
      rw [ih']

theorem sortedVals_congr : ∀ (l l' : List StringTree),
    l.map StringTree.value = l'.map StringTree.value → sortedVals l = sortedVals l' := by
  intro l
  induction l with
  | nil =>
    intro l' h
    cases l' with
    | nil => rfl
    | cons c' rest' => simp at h
  | cons c rest ih =>
    intro l' h
    cases l' with
    | nil => simp at h
    | cons c' rest' =>
      simp only [List.map_cons, List.cons.injEq] at h
      obtain ⟨h1, h2⟩ := h
      simp only [sortedVals, h1, ih rest' h2, allLtVal_congr c'.value rest rest' h2]

@[simp]
theorem value_mk (v u : String) (c : List StringTree) : StringTree.value ⟨v, u, c⟩ = v := rfl

@[simp]
theorem uri_mk (v u : String) (c : List StringTree) : StringTree.uri ⟨v, u, c⟩ = u := rfl

@[simp]
theorem children_mk (v u : String) (c : List StringTree) : StringTree.children ⟨v, u, c⟩ = c := rfl

theorem getD_map {α β : Type _} (f : α → β) :
    ∀ (l : List α) (i : Nat) (d : α), (l.map f).getD i (f d) = f (l.getD i d)
  | [], _, _ => rfl
  | _ :: _, 0, _ => rfl
  | _ :: xs, i + 1, d => getD_map f xs i d

theorem goodTree_mk (v u : String) (ch : List StringTree) :
    goodTree ⟨v, u, ch⟩ = (sortedVals ch && goodList ch) := rfl

theorem goodList_mem : ∀ {l : List StringTree} {c : StringTree},
    goodList l = true → c ∈ l → goodTree c = true := by
  intro l
  induction l with
  | nil => intro c _ hm; simp at hm
  | cons d rest ih =>
    intro c hg hm
    have hg' : goodTree d = true ∧ goodList rest = true := by
      simpa only [goodList, Bool.and_eq_true] using hg
    rcases List.mem_cons.mp hm with rfl | hm
    · exact hg'.1
    · exact ih hg'.2 hm

theorem insert_value_uri : ∀ (vs : List String) (t t' : StringTree) (uri : String) (b : Bool),
    t.insert vs uri = some (t', b) → t'.value = t.value ∧ t'.uri = t.uri := by
  intro vs t t' uri b h
  cases vs with
  | nil => simp [StringTree.insert] at h
  | cons v rest =>
    cases t with
    | mk val slf children =>
      simp only [StringTree.insert] at h
      split at h
      · split at h
        · split at h
          · cases h; exact ⟨rfl, rfl⟩
          · cases h; exact ⟨rfl, rfl⟩
        · split at h
          · cases h
          · cases h; exact ⟨rfl, rfl⟩
      · split at h
        · cases h; exact ⟨rfl, rfl⟩
        · split at h
          · cases h
          · cases h; exact ⟨rfl, rfl⟩

theorem find_in_set (key : String) (c0 : StringTree) {children : List StringTree} {idx : Nat}
    (hsort : sortedVals children = true) (hlen : idx < children.length)
    (hval : c0.value = (children.getD idx default).value) (hkey : c0.value = key) :
    sortedVals (children.set idx c0) = true ∧
      ∃ j, binarySearchByKey key (children.set idx c0) = .ok j ∧
        (children.set idx c0).getD j default = c0 := by
  have hmap : (children.set idx c0).map StringTree.value = children.map StringTree.value := by
    rw [map_set_eq, hval, ← getD_map StringTree.value children idx default]
    exact set_getD_self _ _ _
  have hs' : sortedVals (children.set idx c0) = true := by
    rw [sortedVals_congr _ _ hmap]
    exact hsort
  refine ⟨hs', bs_mem_ok key _ c0 hs' ?_ hkey⟩
  have hgd : (children.set idx c0).getD idx default = c0 := getD_set_eq _ _ _ _ hlen
  have hm : (children.set idx c0).getD idx default ∈ children.set idx c0 :=
    getD_mem _ _ _ (by simpa using hlen)
  rwa [hgd] at hm

theorem find_in_insertIdx (key : String) (a : StringTree) {children : List StringTree} {idx : Nat}
    (hsort : sortedVals children = true)
    (herr : binarySearchByKey key children = .error idx) (hkey : a.value = key) :
    sortedVals (children.insertIdx idx a) = true ∧
      ∃ j, binarySearchByKey key (children.insertIdx idx a) = .ok j ∧
        (children.insertIdx idx a).getD j default = a := by
  have hle := bs_err_le key children idx herr
  have hs' := sortedVals_insertIdx key a hkey children idx hsort herr
  exact ⟨hs', bs_mem_ok key _ a hs' ((List.mem_insertIdx hle).mpr (Or.inl rfl)) hkey⟩

theorem insert_traverseRec :
    ∀ (ts : List String) (t t' : StringTree) (ts' buf : List String)
      (res : List (String × List String)) (uri : String),
      goodTree t = true → uri ≠ "" →
      ts.map lowercase = ts'.map lowercase →
      t.insert ts uri = some (t', true) →
      ∃ out, t'.traverseRec ts' buf res = some out ∧ (uri, buf ++ ts') ∈ out := by
  intro ts
  induction ts with
  | nil =>
    intro t t' ts' buf res uri _ _ _ h
    simp [StringTree.insert] at h
  | cons v rest ih =>
    intro t t' ts' buf res uri hg hu hmap h
    cases t with
    | mk val slf children =>
    cases ts' with
    | nil => simp at hmap
    | cons v' rest' =>
    simp only [List.map_cons, List.cons.injEq] at hmap
    obtain ⟨hv, hrest⟩ := hmap
    have hgood : sortedVals children = true ∧ goodList children = true := by
      simpa only [goodTree_mk, Bool.and_eq_true] using hg
    simp only [StringTree.insert] at h
    split at h
    next idx heq =>
      -- binary search found the child at index idx
      have hlen := bs_ok_lt _ _ _ heq
      have hval := bs_ok_val _ _ _ heq
      split at h
      next hemp =>
        -- rest = [] : terminal step of insert
        have hrnil : rest = [] := List.isEmpty_iff.mp hemp
        subst hrnil
        have hrnil' : rest' = [] := by
          simpa using hrest.symm
        subst hrnil'
        split at h
        next huri =>
          cases h
          -- t' = ⟨val, slf, children.set idx newChild⟩ with the uri written in
          obtain ⟨hs', j, hbs', hget'⟩ :=
            find_in_set (lowercase v')
              ⟨(children.getD idx default).value, uri, (children.getD idx default).children⟩
              hgood.1 hlen (by rw [value_mk]) (by rw [value_mk, hval]; exact hv)
          refine ⟨res ++ [(uri, buf ++ [v'])], ?_, by simp⟩
          simp only [StringTree.traverseRec, hbs', hget', uri_mk]
          rw [if_neg hu]
          rfl
        next huri =>
          cases h
      next hemp =>
        -- rest is non-empty: recurse into the existing child
        have hrne : rest ≠ [] := by simpa [List.isEmpty_iff] using hemp
        have hrne' : rest' ≠ [] := by
          intro hx
          subst hx
          simp at hrest
          exact hrne hrest
        split at h
        next hins => cases h
        next c0 b0 hins =>
          cases h
          have hcv := insert_value_uri _ _ _ _ _ hins
          have hchild : goodTree (children.getD idx default) = true :=
            goodList_mem hgood.2 (getD_mem _ _ _ hlen)
          obtain ⟨hs', j, hbs', hget'⟩ :=
            find_in_set (lowercase v') c0 hgood.1 hlen
              (by rw [hcv.1]) (by rw [hcv.1, hval, ← hv])
          obtain ⟨r', rs', hrs⟩ : ∃ r' rs', rest' = r' :: rs' := by
            cases rest' with
            | nil => exact absurd rfl hrne'
            | cons a b => exact ⟨a, b, rfl⟩
          subst hrs
          obtain ⟨out, hout, hmem⟩ :=
            ih (children.getD idx default) c0 (r' :: rs') (buf ++ [v'])
              (if c0.uri = "" then res else res ++ [(c0.uri, buf ++ [v'])]) uri
              hchild hu hrest hins
          refine ⟨out, ?_, by simpa using hmem⟩
          simp only [StringTree.traverseRec, hbs', hget', List.isEmpty_cons, Bool.false_eq_true,
            if_false]
          exact hout
    next idx heq =>
      -- binary search missed: a fresh node is inserted at idx
      have hle := bs_err_le _ _ _ heq
      split at h
      next hemp =>
        have hrnil : rest = [] := List.isEmpty_iff.mp hemp
        subst hrnil
        have hrnil' : rest' = [] := by
          simpa using hrest.symm
        subst hrnil'
        cases h
        obtain ⟨hs', j, hbs', hget'⟩ :=
          find_in_insertIdx (lowercase v') (StringTree.create (lowercase v) uri)
            hgood.1 (by rw [← hv]; exact heq) (by simp [StringTree.create, hv])
        refine ⟨res ++ [(uri, buf ++ [v'])], ?_, by simp⟩
        simp only [StringTree.create] at hbs' hget' ⊢
        simp only [StringTree.traverseRec, hbs', hget', uri_mk]
        rw [if_neg hu]
        rfl
      next hemp =>
        have hrne : rest ≠ [] := by simpa [List.isEmpty_iff] using hemp
        have hrne' : rest' ≠ [] := by
          intro hx
          subst hx
          simp at hrest
          exact hrne hrest
        split at h
        next hins => cases h
        next c0 b0 hins =>
          cases h
          have hfresh : (children.insertIdx idx (StringTree.create (lowercase v) "")).getD idx
              default = StringTree.create (lowercase v) "" :=
            getD_insertIdx_self _ _ _ _ hle
          rw [hfresh] at hins
          have hcv := insert_value_uri _ _ _ _ _ hins
          have hsort2 : sortedVals (children.insertIdx idx (StringTree.create (lowercase v) ""))
              = true :=
            sortedVals_insertIdx (lowercase v) (StringTree.create (lowercase v) "") rfl
              children idx hgood.1 heq
          have hlen2 : idx < (children.insertIdx idx (StringTree.create (lowercase v) "")).length := by
            rw [List.length_insertIdx _ _ hle]
            omega
          obtain ⟨hs', j, hbs', hget'⟩ :=
            find_in_set (lowercase v') c0 hsort2 hlen2
              (by rw [hcv.1, hfresh]) (by rw [hcv.1]; simp [StringTree.create, hv])
          obtain ⟨r', rs', hrs⟩ : ∃ r' rs', rest' = r' :: rs' := by
            cases rest' with
            | nil => exact absurd rfl hrne'
            | cons a b => exact ⟨a, b, rfl⟩
          subst hrs
          obtain ⟨out, hout, hmem⟩ :=
            ih (StringTree.create (lowercase v) "") c0 (r' :: rs') (buf ++ [v'])
              (if c0.uri = "" then res else res ++ [(c0.uri, buf ++ [v'])]) uri
              (by rfl) hu hrest hins
          refine ⟨out, ?_, by simpa using hmem⟩
          simp only [StringTree.traverseRec, hbs', hget', List.isEmpty_cons, Bool.false_eq_true,
            if_false]
          exact hout

/-- C1: insert/lookup round-trip, case-insensitive: inserting a non-empty
token sequence with a non-empty identifier into a trie satisfying the
children-ordering invariant (successfully, i.e. `insert` returned `true`),
a subsequent `traverse` of the same token sequence in any letter case
succeeds and its result contains that identifier paired with the full
queried token sequence as the matched prefix. -/
theorem C1_insert_lookup_roundtrip (t t' : StringTree) (ts ts' : List String) (uri : String)
    (hg : goodTree t = true) (hu : uri ≠ "")
    (hcase : ts.map lowercase = ts'.map lowercase)
    (hins : t.insert ts uri = some (t', true)) :
    ∃ l, t'.traverse ts' = some (.ok l) ∧ (uri, ts') ∈ l := by
  obtain ⟨out, hout, hmem⟩ := insert_traverseRec ts t t' ts' [] [] uri hg hu hcase hins
  refine ⟨out, ?_, by simpa using hmem⟩
  have hne : out.length > 0 := by
    cases out with
    | nil => simp at hmem
    | cons a b => simp
  simp only [StringTree.traverse, hout]
  rw [if_pos hne]

/-- Witness for C1 at a concrete input: insert `["An", "Example"]` with
identifier `uri:1` into the empty root, then look the phrase up as
`["AN", "example"]`. -/
theorem C1_insert_lookup_roundtrip_witness :
    ∃ l, StringTree.traverse ⟨"<ROOT>", "", [⟨"an", "", [⟨"example", "uri:1", []⟩]⟩]⟩
        ["AN", "example"] = some (.ok l) ∧ ("uri:1", ["AN", "example"]) ∈ l :=
  C1_insert_lookup_roundtrip StringTree.root
    ⟨"<ROOT>", "", [⟨"an", "", [⟨"example", "uri:1", []⟩]⟩]⟩
    ["An", "Example"] ["AN", "example"] "uri:1" (by rfl) (by decide) (by decide) (by rfl)

theorem insert_isSome : ∀ (vs : List String) (t : StringTree) (uri : String), vs ≠ [] →
    (t.insert vs uri).isSome = true := by
  intro vs
  induction vs with
  | nil => intro t uri h; exact absurd rfl h
  | cons v rest ih =>
    intro t uri _
    cases t with
    | mk val slf children =>
      simp only [StringTree.insert]
      split
      next i heq =>
        cases rest with
        | nil =>
          split
          next => split <;> rfl
          next hne => exact absurd (by rfl) hne
        | cons r rs =>
          split
          next hemp => exact absurd hemp (by simp)
          next =>
            obtain ⟨⟨c, b⟩, hp⟩ := Option.isSome_iff_exists.mp
              (ih (children.getD i default) uri (by simp))
            rw [hp]
            rfl
      next i heq =>
        cases rest with
        | nil =>
          split
          next => rfl
          next hne => exact absurd (by rfl) hne
        | cons r rs =>
          split
          next hemp => exact absurd hemp (by simp)
          next =>
            obtain ⟨⟨c, b⟩, hp⟩ := Option.isSome_iff_exists.mp
              (ih ((children.insertIdx i (StringTree.create (lowercase v) "")).getD i default)
                uri (by simp))
            rw [hp]
            rfl

theorem traverseRec_isSome : ∀ (vs : List String) (t : StringTree) (buf : List String)
    (res : List (String × List String)), vs ≠ [] → (t.traverseRec vs buf res).isSome = true := by
  intro vs
  induction vs with
  | nil => intro t buf res h; exact absurd rfl h
  | cons v rest ih =>
    intro t buf res _
    cases t with
    | mk val slf children =>
      simp only [StringTree.traverseRec]
      split
      next i heq =>
        cases rest with
        | nil =>
          split
          next => rfl
          next hne => exact absurd (by rfl) hne
        | cons r rs =>
          split
          next hemp => exact absurd hemp (by simp)
          next => exact ih _ _ _ (by simp)
      next i heq => rfl

/-- C10: implicit precondition. `insert` and `_traverse` unconditionally pop
the first element (`unwrap`/`expect` on `pop_front`), so on the empty token
sequence both panic (modelled: return `none`); on every non-empty token
sequence neither panics (the model returns `some`). -/
theorem C10_empty_input_panics (t : StringTree) (uri : String) :
    t.insert [] uri = none ∧ t.traverse [] = none ∧
      ∀ vs : List String, vs ≠ [] →
        (t.insert vs uri).isSome = true ∧ (t.traverse vs).isSome = true := by
  refine ⟨?_, ?_, ?_⟩
  · cases t; rfl
  · cases t; rfl
  · intro vs hne
    refine ⟨insert_isSome vs t uri hne, ?_⟩
    obtain ⟨r, hr⟩ := Option.isSome_iff_exists.mp (traverseRec_isSome vs t [] [] hne)
    simp [StringTree.traverse, hr]

/-- Witness for C10: the non-empty-input half applied at a concrete tree and
token list. -/
theorem C10_empty_input_panics_witness :
    (StringTree.root.insert ["x"] "u").isSome = true ∧
      (StringTree.root.traverse ["x"]).isSome = true :=
  (C10_empty_input_panics StringTree.root "u").2.2 ["x"] (by decide)

/-- C5: first-write-wins on duplicate insert. If the trie (satisfying the
children-ordering invariant) already contains the phrase — the node at the
case-insensitive token path exists and carries a non-empty identifier — then
re-inserting the same phrase in any letter case and with any identifier
returns `false` and leaves the whole trie unchanged, so lookups are
unaffected. -/
theorem C5_duplicate_insert_noop :
    ∀ (ts : List String) (t c : StringTree) (ts' : List String) (u2 : String),
      goodTree t = true → ts ≠ [] →
      ts'.map lowercase = ts.map lowercase →
      specNodeAt t ts = some c → c.uri ≠ "" →
      t.insert ts' u2 = some (t, false) := by
  intro ts
  induction ts with
  | nil => intro t c ts' u2 _ hne _ _ _; exact absurd rfl hne
  | cons v rest ih =>
    intro t c ts' u2 hg _ hmap hnode hc
    cases t with
    | mk val slf children =>
    cases ts' with
    | nil => simp at hmap
    | cons v' rest' =>
    simp only [List.map_cons, List.cons.injEq] at hmap
    obtain ⟨hv, hrest⟩ := hmap
    have hgood : sortedVals children = true ∧ goodList children = true := by
      simpa only [goodTree_mk, Bool.and_eq_true] using hg
    simp only [specNodeAt, specFindChild, children_mk] at hnode
    split at hnode
    next heq => cases hnode
    next d heq =>
      have hd_mem := List.mem_of_find?_eq_some heq
      have hd_val : d.value = lowercase v := by
        have := List.find?_some heq
        simpa using this
      obtain ⟨i, hbs, hget⟩ := bs_mem_ok (lowercase v) children d hgood.1 hd_mem hd_val
      have hbs' : binarySearchByKey (lowercase v') children = .ok i := by
        rw [hv]; exact hbs
      simp only [StringTree.insert]
      cases rest with
      | nil =>
        have hrnil' : rest' = [] := by simpa using hrest
        subst hrnil'
        have hcd : d = c := by
          simp only [specNodeAt] at hnode
          exact Option.some.inj hnode
        subst hcd
        simp only [hbs', hget]
        split_ifs with h1
        · rfl
        · exact absurd (by rfl) h1
      | cons r rs =>
        obtain ⟨r', rs', hrs⟩ : ∃ a b, rest' = a :: b := by
          cases rest' with
          | nil => simp at hrest
          | cons a b => exact ⟨a, b, rfl⟩
        subst hrs
        have hdg : goodTree d = true := goodList_mem hgood.2 hd_mem
        have hrec := ih d c (r' :: rs') u2 hdg (by simp) hrest hnode hc
        have hset : children.set i d = children := by
          rw [← hget]
          exact set_getD_self _ _ _
        simp only [hbs', hget, hrec, List.isEmpty_cons, Bool.false_eq_true, if_false]
        rw [hset]

/-- Witness for C5: re-inserting `["an", "EXAMPLE"]` with a new identifier
into a trie already holding `an example -> uri:1` returns the trie unchanged
with `false`. -/
theorem C5_duplicate_insert_noop_witness :
    StringTree.insert ⟨"<ROOT>", "", [⟨"an", "", [⟨"example", "uri:1", []⟩]⟩]⟩
        ["an", "EXAMPLE"] "uri:2" =
      some (⟨"<ROOT>", "", [⟨"an", "", [⟨"example", "uri:1", []⟩]⟩]⟩, false) :=
  C5_duplicate_insert_noop ["An", "Example"]
    ⟨"<ROOT>", "", [⟨"an", "", [⟨"example", "uri:1", []⟩]⟩]⟩
    ⟨"example", "uri:1", []⟩ ["an", "EXAMPLE"] "uri:2"
    (by rfl) (by decide) (by decide) (by rfl) (by decide)

theorem traverseRec_spec :
    ∀ (vs : List String) (t : StringTree) (buf : List String)
      (res : List (String × List String)),
      goodTree t = true → vs ≠ [] →
      t.traverseRec vs buf res =
        some (res ++ (specLookup t vs).map (fun r => (r.1, buf ++ r.2))) := by
  intro vs
  induction vs with
  | nil => intro t buf res _ hne; exact absurd rfl hne
  | cons v rest ih =>
    intro t buf res hg _
    cases t with
    | mk val slf children =>
    have hgood : sortedVals children = true ∧ goodList children = true := by
      simpa only [goodTree_mk, Bool.and_eq_true] using hg
    simp only [StringTree.traverseRec, specLookup, specFindChild, children_mk]
    cases hbs : binarySearchByKey (lowercase v) children with
    | error i =>
      have hf := bs_err_find? (lowercase v) children i hgood.1 hbs
      simp only [hbs, hf, List.map_nil, List.append_nil]
    | ok i =>
      have hf := bs_ok_find? (lowercase v) children i hgood.1 hbs
      simp only [hbs, hf]
      cases rest with
      | nil =>
        simp only [specLookup, List.map_nil, List.append_nil, List.isEmpty_nil]
        by_cases huri : (children.getD i default).uri = ""
        · simp only [if_pos huri]
          simp
        · simp only [if_neg huri]
          simp
      | cons r rs =>
        have hgc : goodTree (children.getD i default) = true :=
          goodList_mem hgood.2 (getD_mem _ _ _ (bs_ok_lt _ _ _ hbs))
        simp only [List.isEmpty_cons, Bool.false_eq_true, if_false]
        rw [ih (children.getD i default) (buf ++ [v]) _ hgc (by simp)]
        by_cases huri : (children.getD i default).uri = ""
        · simp only [if_pos huri]
          simp [List.map_map, Function.comp, List.append_assoc]
        · simp only [if_neg huri]
          simp [List.map_map, Function.comp, List.append_assoc]

/-- C4: lookup semantics. On a trie satisfying the children-ordering
invariant and a non-empty token sequence, `traverse` returns exactly the
reference lookup of the spec — one `(identifier, matched-prefix)` pair per
prefix whose node carries a non-empty identifier, descent stopping at the
first token with no matching child — and the `"No matches found"` error
exactly when that collection is empty (a miss is a value, not a panic). -/
theorem C4_lookup_semantics (t : StringTree) (v : String) (vs : List String)
    (hg : goodTree t = true) :
    t.traverse (v :: vs) =
      some (if specLookup t (v :: vs) = [] then Except.error "No matches found"
            else Except.ok (specLookup t (v :: vs))) := by
  have h := traverseRec_spec (v :: vs) t [] [] hg (by simp)
  have hmap : (specLookup t (v :: vs)).map
      (fun r : String × List String => (r.1, ([] : List String) ++ r.2)) =
      specLookup t (v :: vs) := by
    simp
  rw [hmap] at h
  simp only [StringTree.traverse, h, List.nil_append]
  by_cases he : specLookup t (v :: vs) = []
  · simp [he]
  · have hp : 0 < (specLookup t (v :: vs)).length := List.length_pos.mpr he
    simp [he, hp]

/-- Witness for C4 at a concrete trie holding `example phrase -> uri:p`,
queried with `["Example", "phrase"]`. -/
theorem C4_lookup_semantics_witness :
    StringTree.traverse ⟨"<ROOT>", "", [⟨"example", "", [⟨"phrase", "uri:p", []⟩]⟩]⟩
        ["Example", "phrase"] =
      some (if specLookup ⟨"<ROOT>", "", [⟨"example", "", [⟨"phrase", "uri:p", []⟩]⟩]⟩
            ["Example", "phrase"] = [] then Except.error "No matches found"
          else Except.ok (specLookup ⟨"<ROOT>", "", [⟨"example", "", [⟨"phrase", "uri:p", []⟩]⟩]⟩
            ["Example", "phrase"])) :=
  C4_lookup_semantics ⟨"<ROOT>", "", [⟨"example", "", [⟨"phrase", "uri:p", []⟩]⟩]⟩
    "Example" ["phrase"] (by rfl)

theorem getD_range_map {α : Type _} (f : Nat → α) (k i : Nat) (d : α) (h : i < k) :
    ((List.range k).map f).getD i d = f i := by
  rw [List.getD_eq_getElem?_getD, List.getElem?_map, List.getElem?_range h]
  rfl

theorem goodList_set : ∀ (l : List StringTree) (i : Nat) (c : StringTree),
    goodList l = true → goodTree c = true → goodList (l.set i c) = true := by
  intro l
  induction l with
  | nil => intro i c h _; exact h
  | cons d rest ih =>
    intro i c h hc
    have h' : goodTree d = true ∧ goodList rest = true := by
      simpa only [goodList, Bool.and_eq_true] using h
    cases i with
    | zero => simp only [List.set, goodList, Bool.and_eq_true]; exact ⟨hc, h'.2⟩
    | succ j =>
      simp only [List.set, goodList, Bool.and_eq_true]
      exact ⟨h'.1, ih j c h'.2 hc⟩

theorem goodList_insertIdx : ∀ (l : List StringTree) (i : Nat) (c : StringTree),
    goodList l = true → goodTree c = true → goodList (l.insertIdx i c) = true := by
  intro l
  induction l with
  | nil =>
    intro i c h hc
    cases i with
    | zero => simp [goodList, hc]
    | succ j => exact h
  | cons d rest ih =>
    intro i c h hc
    have h' : goodTree d = true ∧ goodList rest = true := by
      simpa only [goodList, Bool.and_eq_true] using h
    cases i with
    | zero =>
      simp only [List.insertIdx_zero, goodList, Bool.and_eq_true]
      exact ⟨hc, h'.1, h'.2⟩
    | succ j =>
      simp only [List.insertIdx_succ_cons, goodList, Bool.and_eq_true]
      exact ⟨h'.1, ih j c h'.2 hc⟩

theorem goodTree_ignore (t : StringTree) (v u : String) :
    goodTree ⟨v, u, t.children⟩ = goodTree t := by
  cases t
  rfl

/-- Insertion preserves the children-ordering invariant at every node: the
half of C3 that does hold. `join` is the operation that breaks it. -/
theorem insert_goodTree : ∀ (vs : List String) (t t' : StringTree) (uri : String) (b : Bool),
    goodTree t = true → t.insert vs uri = some (t', b) → goodTree t' = true := by
  intro vs
  induction vs with
  | nil => intro t t' uri b _ h; simp [StringTree.insert] at h
  | cons v rest ih =>
    intro t t' uri b hg h
    cases t with
    | mk val slf children =>
    have hgood : sortedVals children = true ∧ goodList children = true := by
      simpa only [goodTree_mk, Bool.and_eq_true] using hg
    simp only [StringTree.insert] at h
    split at h
    next idx heq =>
      have hlen := bs_ok_lt _ _ _ heq
      have hval := bs_ok_val _ _ _ heq
      have hmem := getD_mem children idx default hlen
      have hgc : goodTree (children.getD idx default) = true := goodList_mem hgood.2 hmem
      split at h
      next hemp =>
        split at h
        next huri =>
          cases h
          rw [goodTree_mk, Bool.and_eq_true]
          constructor
          · exact (find_in_set (lowercase v)
              ⟨(children.getD idx default).value, uri, (children.getD idx default).children⟩
              hgood.1 hlen (by rw [value_mk]) (by rw [value_mk]; exact hval)).1
          · refine goodList_set _ _ _ hgood.2 ?_
            rw [goodTree_ignore (children.getD idx default)]
            exact hgc
        next huri =>
          cases h
          exact hg
      next hemp =>
        split at h
        next hins => cases h
        next c0 b0 hins =>
          cases h
          have hcv := insert_value_uri _ _ _ _ _ hins
          rw [goodTree_mk, Bool.and_eq_true]
          constructor
          · exact (find_in_set (lowercase v) c0 hgood.1 hlen (by rw [hcv.1])
              (by rw [hcv.1]; exact hval)).1
          · exact goodList_set _ _ _ hgood.2 (ih _ _ _ _ hgc hins)
    next idx heq =>
      have hle := bs_err_le _ _ _ heq
      split at h
      next hemp =>
        cases h
        rw [goodTree_mk, Bool.and_eq_true]
        constructor
        · exact sortedVals_insertIdx (lowercase v) (StringTree.create (lowercase v) uri) rfl
            children idx hgood.1 heq
        · exact goodList_insertIdx _ _ _ hgood.2 (by rfl)
      next hemp =>
        split at h
        next hins => cases h
        next c0 b0 hins =>
          cases h
          have hfresh : (children.insertIdx idx (StringTree.create (lowercase v) "")).getD idx
              default = StringTree.create (lowercase v) "" :=
            getD_insertIdx_self _ _ _ _ hle
          rw [hfresh] at hins
          have hcv := insert_value_uri _ _ _ _ _ hins
          have hsort2 : sortedVals (children.insertIdx idx (StringTree.create (lowercase v) ""))
              = true :=
            sortedVals_insertIdx (lowercase v) (StringTree.create (lowercase v) "") rfl
              children idx hgood.1 heq
          have hlen2 : idx < (children.insertIdx idx
              (StringTree.create (lowercase v) "")).length := by
            rw [List.length_insertIdx _ _ hle]
            omega
          rw [goodTree_mk, Bool.and_eq_true]
          constructor
          · refine (find_in_set (lowercase v) c0 hsort2 hlen2 ?_ ?_).1
            · rw [hcv.1, hfresh]
            · rw [hcv.1]
              rfl
          · refine goodList_set _ _ _ (goodList_insertIdx _ _ _ hgood.2 (by rfl)) ?_
            exact ih _ _ _ _ (by rfl) hins

/-- C2 (code bug in `join`): merging a trie with no root children with one
holding a single child panics. After the `s_index >= children.len()` push of
the last remaining child of `other`, the loop falls through to the
comparison and indexes `other.children[o_index]` with `o_index` out of
bounds. The claim says `join` terminates normally; the code panics. -/
theorem C2_join_panics :
    StringTree.join 100 StringTree.root ⟨"<ROOT>", "", [⟨"a", "uri:1", []⟩]⟩ =
      .error .indexPanic := rfl

/-- C3 (code bug in `join`): the `Ordering::Less` arm inserts the larger
value of `other` before the smaller value of `self`, so joining `[a]` with
`[b]` yields children `[b, a]` — not sorted, so the children-ordering
invariant the claim asserts is violated and binary search over the result is
invalid. -/
theorem C3_join_breaks_ordering :
    StringTree.join 100 ⟨"<ROOT>", "", [⟨"a", "uri:a", []⟩]⟩
        ⟨"<ROOT>", "", [⟨"b", "uri:b", []⟩]⟩ =
      .ok ⟨"<ROOT>", "", [⟨"b", "uri:b", []⟩, ⟨"a", "uri:a", []⟩]⟩ ∧
      goodTree ⟨"<ROOT>", "", [⟨"b", "uri:b", []⟩, ⟨"a", "uri:a", []⟩]⟩ = false := ⟨rfl, rfl⟩

/-- C6 (code bug in `split_with_indices`): on `"a  b"` the tokenizer emits
the empty token `""` for the run between the two consecutive spaces, and the
final run `"b"` after the last delimiter is dropped; on `"ab cd"` the final
run `"cd"` is dropped. The claim says the output is exactly the maximal
non-empty runs with the final run included. -/
theorem C6_tokenizer_divergence :
    split_with_indices "a  b" = ([(0, 1), (2, 2)], ["a", ""]) ∧
      split_with_indices "ab cd" = ([(0, 2)], ["ab"]) := ⟨rfl, rfl⟩

/-- C7 counterexample: the harness scans `slice::windows(max_len)`, which
yields no window at all when fewer than `max_len` tokens exist — here three
tokens with `max_len = 5` — so no window beginning at index 0 is ever looked
up, contradicting the claim that a window of "up to max_len tokens, fewer
when fewer remain" is scanned at every start. -/
theorem C7_counterexample :
    windows 5 ["lyronna", "dolichobellum", "abc"] = ([] : List (List String)) ∧
      (["lyronna", "dolichobellum", "abc"] : List String) ≠ [] := by
  constructor
  · rfl
  · decide

/-- C7 amended: the scanned windows are exactly the contiguous runs of
exactly `max_len` tokens: there are `len + 1 - max_len` of them, the window
at start `i` exists only while `i + max_len ≤ len` and has exactly `max_len`
tokens, and a text with fewer than `max_len` tokens is scanned by no window
at all (so phrases starting within the last `max_len - 1` tokens are not
looked up). -/
theorem C7_window_coverage (n i : Nat) (l : List String)
    (hn : 1 ≤ n) (hi : i + n ≤ l.length) :
    (windows n l).length = l.length + 1 - n ∧
      (windows n l).getD i [] = (l.drop i).take n ∧
      ((l.drop i).take n).length = n ∧
      ∀ m : List String, m.length < n → windows n m = [] := by
  refine ⟨?_, ?_, ?_, ?_⟩
  · simp [windows]
  · have hik : i < l.length + 1 - n := by omega
    exact getD_range_map _ _ _ _ hik
  · rw [List.length_take, List.length_drop]
    omega
  · intro m hm
    have hz : m.length + 1 - n = 0 := by omega
    simp [windows, hz]

/-- Witness for C7's amended statement at `max_len = 2` over three tokens,
window start 1. -/
theorem C7_window_coverage_witness :
    (windows 2 ["a", "b", "c"]).length = (["a", "b", "c"] : List String).length + 1 - 2 ∧
      (windows 2 ["a", "b", "c"]).getD 1 [] = ((["a", "b", "c"] : List String).drop 1).take 2 ∧
      (((["a", "b", "c"] : List String).drop 1).take 2).length = 2 ∧
      ∀ m : List String, m.length < 2 → windows 2 m = [] :=
  C7_window_coverage 2 1 ["a", "b", "c"] (by decide) (by decide)

/-- C8 counterexample: with `example phrase` indexed and the text
`"An example phrase here"`, no reported match carries `end_offset = 18`: the
code computes the end offset from the last matched token's `(11, 17)` pair,
giving 17 (`s[3..17] = "example phrase"`). -/
theorem C8_counterexample :
    ¬ ∃ r ∈ searchOutputs examplePhraseTree 2 "An example phrase here",
        r.2.2.1 = 3 ∧ r.2.2.2 = 18 := by decide

/-- C8 amended: the search harness on `"An example phrase here"` (window
length 2 so that the window is scanned at all; `windows(5)` would scan
nothing for this 3-token-after-tokenization text) reports exactly one match:
identifier `uri:p`, text `example phrase`, `start_offset = 3` and
`end_offset = 17`, the first matched token's start and last matched token's
(exclusive) end. -/
theorem C8_offsets :
    searchOutputs examplePhraseTree 2 "An example phrase here" =
      [("uri:p", "example phrase", 3, 17)] := rfl

/-- C9: `/tag` boundary defaults. Any `result_selection` string other than
`All`/`Last`/`Longest` falls back to `Longest` (total, never a failure), an
omitted `result_selection` defaults to `Longest`, an omitted `max_len` to 5
and an omitted `max_deletes` to 0, while supplied values pass through. -/
theorem C9_tag_defaults (s : String) (hA : s ≠ "All") (hL : s ≠ "Last") (hG : s ≠ "Longest") :
    tagResultSelection (some s) = .Longest ∧
      tagResultSelection none = .Longest ∧
      tagMaxLen none = some 5 ∧
      tagMaxDeletes none = some 0 ∧
      (∀ n, tagMaxLen (some n) = some n) ∧
      (∀ n, tagMaxDeletes (some n) = some n) ∧
      ∀ o, tagResultSelection o = .All ∨ tagResultSelection o = .Last ∨
        tagResultSelection o = .Longest := by
  refine ⟨?_, rfl, rfl, rfl, fun n => rfl, fun n => rfl, ?_⟩
  · simp [tagResultSelection, hA, hL, hG]
  · intro o
    cases o with
    | none => right; right; rfl
    | some u =>
      by_cases h1 : u = "All"
      · left; simp [tagResultSelection, h1]
      · by_cases h2 : u = "Last"
        · right; left; simp [tagResultSelection, h1, h2]
        · right; right; simp [tagResultSelection, h1, h2]

/-- Witness for C9 at the unknown selection string `banana`. -/
theorem C9_tag_defaults_witness :
    tagResultSelection (some "banana") = .Longest ∧
      tagResultSelection none = .Longest ∧
      tagMaxLen none = some 5 ∧
      tagMaxDeletes none = some 0 ∧
      (∀ n, tagMaxLen (some n) = some n) ∧
      (∀ n, tagMaxDeletes (some n) = some n) ∧
      ∀ o, tagResultSelection o = .All ∨ tagResultSelection o = .Last ∨
        tagResultSelection o = .Longest :=
  C9_tag_defaults "banana" (by decide) (by decide) (by decide)

end Gazetteer
